import Mathlib

/-!
Verification development for the MCP server configuration translation layer
of the skills-sync repository (source: src/agents_sync/mcp.py and
src/agents_sync/platforms.py).

The Python code is shallowly embedded: JSON/TOML scalar shapes appearing in
server entries become the inductive type `Val`; a parsed JSON/TOML object
becomes an insertion-ordered association list with Python-dict semantics
(`dget` for `d.get(k)` / `d[k]`, `dinsert` for `d[k] = v`, `ddel` for
`del d[k]`); a config file on disk is a `FileState`: absent, present but
failing to parse, or parsed.  The embedding assumes well-typed field values
(e.g. the `command` field of an entry holds a string); where a proof needs
this it is an explicit hypothesis.
-/

set_option synthInstance.maxSize 1024

/-- Field values occurring in MCP server entries: strings, string arrays
(argument lists and fused command arrays), string-to-string maps
(env / headers), and booleans (the `enabled` flag). -/
inductive Val where
  | s : String → Val
  | ls : List String → Val
  | sm : List (String × String) → Val
  | b : Bool → Val
deriving DecidableEq

/-- One server entry: an insertion-ordered JSON object of field values. -/
abbrev Entry := List (String × Val)

/-- A server map: server name to entry, insertion ordered. -/
abbrev ServerMap := List (String × Entry)

/-- Top-level values of a platform config file: either a server-map-shaped
object (the value under the owned key) or some unrelated sibling value,
modelled abstractly by a tag. -/
inductive TopVal where
  | smap : ServerMap → TopVal
  | other : Nat → TopVal
deriving DecidableEq

/-- A parsed top-level config file object. -/
abbrev TopObj := List (String × TopVal)

/-- State of one config file on disk: missing, present but not parseable
(JSONDecodeError / TOMLDecodeError on load), or parsed to a value. -/
inductive FileState (α : Type) where
  | absent : FileState α
  | malformed : FileState α
  | ok : α → FileState α
deriving DecidableEq

/-- Python `d.get(k)` / `k in d` on an insertion-ordered dict. -/
def dget {α : Type} : List (String × α) → String → Option α
  | [], _ => none
  | p :: rest, k => if p.1 = k then some p.2 else dget rest k

/-- Python `k in d`. -/
def hasKey {α : Type} (d : List (String × α)) (k : String) : Bool :=
  (dget d k).isSome

/-- Python `d[k] = v`: replace in place if the key is present, else append. -/
def dinsert {α : Type} : List (String × α) → String → α → List (String × α)
  | [], k, v => [(k, v)]
  | p :: rest, k, v => if p.1 = k then (k, v) :: rest else p :: dinsert rest k v

/-- Python `del d[k]`: remove the binding of `k`. -/
def ddel {α : Type} : List (String × α) → String → List (String × α)
  | [], _ => []
  | p :: rest, k => if p.1 = k then rest else p :: ddel rest k

/-- Content of a file for a reader that treats a missing or unparseable file
as the empty object (`data = {}` before the try, `pass` on failure). -/
def loadTop : FileState TopObj → TopObj
  | .ok d => d
  | _ => []

/-- Python `data.get(key, {})` where the value is expected to be a
name-to-entry object. -/
def getSmap (d : TopObj) (k : String) : ServerMap :=
  match dget d k with
  | some (TopVal.smap m) => m
  | _ => []

/-- String extraction with default, for `config.get(k, "")` feeding a
string position. -/
def getS (v : Option Val) (dflt : String) : String :=
  match v with
  | some (Val.s x) => x
  | _ => dflt

/-- String-list extraction with default, for `config.get(k, [])` feeding a
list position. -/
def getLs (v : Option Val) : List String :=
  match v with
  | some (Val.ls l) => l
  | _ => []

/-- The supported platforms (enum Platform in platforms.py). -/
inductive Platform where
  | claudeCode : Platform
  | codex : Platform
  | openCode : Platform
  | cursor : Platform
  | windsurf : Platform
deriving DecidableEq

/-- The abstract file-system state: one global config file per platform,
plus the discovered Claude plugin .mcp.json files (plugin name and file
content, in discovery order). -/
structure FS where
  claudeGlobal : FileState TopObj
  claudePlugins : List (String × FileState ServerMap)
  codexGlobal : FileState TopObj
  opencodeGlobal : FileState TopObj
  cursorGlobal : FileState TopObj
  windsurfGlobal : FileState TopObj
deriving DecidableEq

/-- The global config file a platform reads and writes (get_mcp_paths). -/
def globalFile : Platform → FS → FileState TopObj
  | .claudeCode, fs => fs.claudeGlobal
  | .codex, fs => fs.codexGlobal
  | .openCode, fs => fs.opencodeGlobal
  | .cursor, fs => fs.cursorGlobal
  | .windsurf, fs => fs.windsurfGlobal

/-- The single top-level key each codec owns in its global file. -/
def ownedKey : Platform → String
  | .claudeCode => "mcpServers"
  | .codex => "mcp_servers"
  | .openCode => "mcp"
  | .cursor => "mcpServers"
  | .windsurf => "mcpServers"

/-- A file-system state with no config files at all. -/
def FS.empty : FS :=
  { claudeGlobal := .absent, claudePlugins := [],
    codexGlobal := .absent, opencodeGlobal := .absent,
    cursorGlobal := .absent, windsurfGlobal := .absent }

/-- Per-entry conversion of _read_codex_mcp: presence of the url key (not a
type field) selects the remote shape; otherwise whichever of command, args
and env are present are carried over. -/
def codexDecodeEntry (config : Entry) : Entry :=
  match dget config "url" with
  | some u =>
      [("type", Val.s "http"), ("url", u)] ++
      (match dget config "http_headers" with
       | some h => [("headers", h)]
       | none => [])
  | none =>
      (match dget config "command" with
       | some v => [("command", v)]
       | none => []) ++
      ((match dget config "args" with
        | some v => [("args", v)]
        | none => []) ++
       (match dget config "env" with
        | some v => [("env", v)]
        | none => []))

/-- Per-entry conversion of _read_opencode_mcp: type defaults to "local";
a local entry splits the fused command array into command head and args
tail, and renames environment to env; any other type is read as remote. -/
def opencodeDecodeEntry (config : Entry) : Entry :=
  let serverType := (dget config "type").getD (Val.s "local")
  if serverType = Val.s "local" then
    let commandList := getLs (dget config "command")
    [("command", Val.s (match commandList with | [] => "" | c :: _ => c)),
     ("args", Val.ls (if commandList.length > 1 then commandList.drop 1 else []))] ++
    (match dget config "environment" with
     | some v => [("env", v)]
     | none => [])
  else
    [("type", Val.s "http"), ("url", (dget config "url").getD (Val.s ""))] ++
    (match dget config "headers" with
     | some v => [("headers", v)]
     | none => [])

/-- Per-entry conversion of _write_codex_mcp: the canonical type field
(defaulting to "stdio") selects the shape; sse/http map url and headers,
anything else maps whichever of command, args and env are present. -/
def codexEncodeEntry (config : Entry) : Entry :=
  let serverType := (dget config "type").getD (Val.s "stdio")
  if serverType = Val.s "sse" ∨ serverType = Val.s "http" then
    (match dget config "url" with
     | some v => [("url", v)]
     | none => []) ++
    (match dget config "headers" with
     | some v => [("http_headers", v)]
     | none => [])
  else
    (match dget config "command" with
     | some v => [("command", v)]
     | none => []) ++
    ((match dget config "args" with
      | some v => [("args", v)]
      | none => []) ++
     (match dget config "env" with
      | some v => [("env", v)]
      | none => []))

/-- Per-entry conversion of _write_opencode_mcp: the canonical type field
(defaulting to "stdio") selects the shape; stdio fuses command and args
into one array, renames env to environment, and sets enabled true; any
other type is written as remote with enabled true. -/
def opencodeEncodeEntry (config : Entry) : Entry :=
  let serverType := (dget config "type").getD (Val.s "stdio")
  if serverType = Val.s "stdio" then
    let commandList := getS (dget config "command") "" ::
      (match dget config "args" with
       | some (Val.ls l) => l
       | _ => [])
    [("type", Val.s "local"), ("command", Val.ls commandList), ("enabled", Val.b true)] ++
    (match dget config "env" with
     | some v => [("environment", v)]
     | none => [])
  else
    [("type", Val.s "remote"), ("url", (dget config "url").getD (Val.s "")), ("enabled", Val.b true)] ++
    (match dget config "headers" with
     | some v => [("headers", v)]
     | none => [])

/-- Loop of _read_claude_mcp over the entries of the global mcpServers
object: each entry is stored and a provenance line recorded. -/
def claudeGlobalLoop : ServerMap × List String → ServerMap → ServerMap × List String
  | acc, [] => acc
  | acc, (name, config) :: rest =>
      claudeGlobalLoop
        (dinsert acc.1 name config, acc.2 ++ [name ++ " (from ~/.claude.json)"]) rest

/-- Loop of _read_claude_mcp over one plugin .mcp.json object: an entry is
stored only when its name is not already present. -/
def claudePluginLoop (pluginName : String) :
    ServerMap × List String → ServerMap → ServerMap × List String
  | acc, [] => acc
  | acc, (name, config) :: rest =>
      if hasKey acc.1 name then claudePluginLoop pluginName acc rest
      else
        claudePluginLoop pluginName
          (dinsert acc.1 name config,
           acc.2 ++ [name ++ " (from " ++ pluginName ++ " plugin)"]) rest

/-- Loop of _read_claude_mcp over the discovered plugin files, skipping
files that are missing or fail to parse. -/
def claudePluginsLoop :
    ServerMap × List String → List (String × FileState ServerMap) → ServerMap × List String
  | acc, [] => acc
  | acc, (pluginName, file) :: rest =>
      match file with
      | .ok m => claudePluginsLoop (claudePluginLoop pluginName acc m) rest
      | _ => claudePluginsLoop acc rest

/-- _read_claude_mcp: the global ~/.claude.json mcpServers object first,
then every plugin .mcp.json in discovery order; a missing or unparseable
file contributes nothing. -/
def read_claude_mcp (glob : FileState TopObj)
    (plugins : List (String × FileState ServerMap)) : ServerMap × List String :=
  let init : ServerMap × List String :=
    match glob with
    | .ok d => claudeGlobalLoop ([], []) (getSmap d "mcpServers")
    | _ => ([], [])
  claudePluginsLoop init plugins

/-- Loop of _read_cursor_windsurf_mcp over the mcpServers object. -/
def cursorWindsurfLoop (fname : String) :
    ServerMap × List String → ServerMap → ServerMap × List String
  | acc, [] => acc
  | acc, (name, config) :: rest =>
      cursorWindsurfLoop fname
        (dinsert acc.1 name config, acc.2 ++ [name ++ " (from " ++ fname ++ ")"]) rest

/-- _read_cursor_windsurf_mcp: single global file, same object shape as
Claude, entries passed through unchanged. -/
def read_cursor_windsurf_mcp (fname : String) (glob : FileState TopObj) :
    ServerMap × List String :=
  match glob with
  | .ok d => cursorWindsurfLoop fname ([], []) (getSmap d "mcpServers")
  | _ => ([], [])

/-- Loop of _read_codex_mcp: convert each entry and keep it only when the
converted entry is non-empty. -/
def codexReadLoop : ServerMap × List String → ServerMap → ServerMap × List String
  | acc, [] => acc
  | acc, (name, config) :: rest =>
      let cc := codexDecodeEntry config
      if cc = [] then codexReadLoop acc rest
      else codexReadLoop (dinsert acc.1 name cc, acc.2 ++ [name ++ " (from config.toml)"]) rest

/-- _read_codex_mcp: single global config.toml, entries of the mcp_servers
table converted to the canonical shape. -/
def read_codex_mcp (glob : FileState TopObj) : ServerMap × List String :=
  match glob with
  | .ok d => codexReadLoop ([], []) (getSmap d "mcp_servers")
  | _ => ([], [])

/-- Loop of _read_opencode_mcp: convert each entry of the mcp object. -/
def opencodeReadLoop : ServerMap × List String → ServerMap → ServerMap × List String
  | acc, [] => acc
  | acc, (name, config) :: rest =>
      opencodeReadLoop
        (dinsert acc.1 name (opencodeDecodeEntry config),
         acc.2 ++ [name ++ " (from opencode.json)"]) rest

/-- _read_opencode_mcp: single global opencode.json, entries of the mcp
object converted to the canonical shape. -/
def read_opencode_mcp (glob : FileState TopObj) : ServerMap × List String :=
  match glob with
  | .ok d => opencodeReadLoop ([], []) (getSmap d "mcp")
  | _ => ([], [])

/-- read_mcp_servers: dispatch to the per-platform reader over the abstract
file-system state. -/
def read_mcp_servers (p : Platform) (fs : FS) : ServerMap × List String :=
  match p with
  | .claudeCode => read_claude_mcp fs.claudeGlobal fs.claudePlugins
  | .codex => read_codex_mcp fs.codexGlobal
  | .openCode => read_opencode_mcp fs.opencodeGlobal
  | .cursor => read_cursor_windsurf_mcp "mcp.json" fs.cursorGlobal
  | .windsurf => read_cursor_windsurf_mcp "mcp_config.json" fs.windsurfGlobal

/-- _write_claude_mcp: read-merge-write of the global file, replacing only
the mcpServers key. -/
def write_claude_mcp (existing : FileState TopObj) (servers : ServerMap) : TopObj :=
  dinsert (loadTop existing) "mcpServers" (TopVal.smap servers)

/-- _write_cursor_windsurf_mcp: identical shape to the Claude writer. -/
def write_cursor_windsurf_mcp (existing : FileState TopObj) (servers : ServerMap) : TopObj :=
  dinsert (loadTop existing) "mcpServers" (TopVal.smap servers)

/-- Loop of _write_codex_mcp: convert each entry, skipping entries whose
conversion yields no usable fields. -/
def codexWriteLoop : ServerMap → ServerMap → ServerMap
  | acc, [] => acc
  | acc, (name, config) :: rest =>
      let cc := codexEncodeEntry config
      if cc = [] then codexWriteLoop acc rest
      else codexWriteLoop (dinsert acc name cc) rest

/-- _write_codex_mcp: read-merge-write of config.toml, replacing only the
mcp_servers key with the converted entries. -/
def write_codex_mcp (existing : FileState TopObj) (servers : ServerMap) : TopObj :=
  dinsert (loadTop existing) "mcp_servers" (TopVal.smap (codexWriteLoop [] servers))

/-- Loop of _write_opencode_mcp: convert every entry. -/
def opencodeWriteLoop : ServerMap → ServerMap → ServerMap
  | acc, [] => acc
  | acc, (name, config) :: rest =>
      opencodeWriteLoop (dinsert acc name (opencodeEncodeEntry config)) rest

/-- _write_opencode_mcp: read-merge-write of opencode.json, replacing only
the mcp key with the converted entries. -/
def write_opencode_mcp (existing : FileState TopObj) (servers : ServerMap) : TopObj :=
  dinsert (loadTop existing) "mcp" (TopVal.smap (opencodeWriteLoop [] servers))

/-- The encoder of each platform applied to that platform's global file
content, as dispatched by write_mcp_servers. -/
def encodeFile (p : Platform) (existing : FileState TopObj) (servers : ServerMap) : TopObj :=
  match p with
  | .claudeCode => write_claude_mcp existing servers
  | .codex => write_codex_mcp existing servers
  | .openCode => write_opencode_mcp existing servers
  | .cursor => write_cursor_windsurf_mcp existing servers
  | .windsurf => write_cursor_windsurf_mcp existing servers

/-- write_mcp_servers without dry-run: the destination global file is
replaced by the encoder output (the write succeeds in this model). -/
def writeFS (p : Platform) (servers : ServerMap) (fs : FS) : FS :=
  match p with
  | .claudeCode => { fs with claudeGlobal := .ok (write_claude_mcp fs.claudeGlobal servers) }
  | .codex => { fs with codexGlobal := .ok (write_codex_mcp fs.codexGlobal servers) }
  | .openCode => { fs with opencodeGlobal := .ok (write_opencode_mcp fs.opencodeGlobal servers) }
  | .cursor => { fs with cursorGlobal := .ok (write_cursor_windsurf_mcp fs.cursorGlobal servers) }
  | .windsurf => { fs with windsurfGlobal := .ok (write_cursor_windsurf_mcp fs.windsurfGlobal servers) }

/-- _count_mcp_servers: zero when the global file is missing; for Claude the
length of the merged global-plus-plugin view; for the rest the raw length of
the owned native key (zero when the file fails to parse). -/
def count_mcp_servers (p : Platform) (fs : FS) : Nat :=
  match globalFile p fs, p with
  | .absent, _ => 0
  | _, .claudeCode => (read_claude_mcp fs.claudeGlobal fs.claudePlugins).1.length
  | .ok d, pp => (getSmap d (ownedKey pp)).length
  | .malformed, _ => 0

/-- Removal of the owned key from one global file, as done by the non-Claude
branches of clean_mcp_servers: a parsed file loses the key when present and
is otherwise untouched; a missing file stays missing; a file that fails to
parse raises during load, which the function catches, leaving it unchanged. -/
def cleanGlobal (f : FileState TopObj) (key : String) : FileState TopObj :=
  match f with
  | .ok d => if hasKey d key then .ok (ddel d key) else .ok d
  | other => other

/-- clean_mcp_servers: the count is taken first; on dry-run or zero count
nothing is touched; for Claude the global file loses its mcpServers key and
every plugin .mcp.json is deleted, except that a global file that fails to
parse aborts the whole clean (the parse error is caught at function level,
skipping the plugin deletion); other platforms clean only their global
file. Returns the count taken before deletion with the new state. -/
def clean_mcp_servers (p : Platform) (dryRun : Bool) (fs : FS) : Nat × FS :=
  let removedCount := count_mcp_servers p fs
  if dryRun ∨ removedCount = 0 then (removedCount, fs)
  else
    match p with
    | .claudeCode =>
        match fs.claudeGlobal with
        | .malformed => (removedCount, fs)
        | .ok d =>
            (removedCount,
             { fs with
                claudeGlobal := if hasKey d "mcpServers" then .ok (ddel d "mcpServers") else .ok d,
                claudePlugins := [] })
        | .absent => (removedCount, { fs with claudePlugins := [] })
    | .codex => (removedCount, { fs with codexGlobal := cleanGlobal fs.codexGlobal "mcp_servers" })
    | .openCode => (removedCount, { fs with opencodeGlobal := cleanGlobal fs.opencodeGlobal "mcp" })
    | .cursor => (removedCount, { fs with cursorGlobal := cleanGlobal fs.cursorGlobal "mcpServers" })
    | .windsurf =>
        (removedCount, { fs with windsurfGlobal := cleanGlobal fs.windsurfGlobal "mcpServers" })

theorem dget_append {α : Type} (a b : List (String × α)) (k : String) :
    dget (a ++ b) k = (dget a k).orElse (fun _ => dget b k) := by
  induction a with
  | nil => simp [dget]
  | cons p rest ih =>
      by_cases h : p.1 = k <;> simp [dget, h, ih]

theorem dget_eq_none_iff {α : Type} (l : List (String × α)) (k : String) :
    dget l k = none ↔ k ∉ l.map Prod.fst := by
  induction l with
  | nil => simp [dget]
  | cons p rest ih =>
      by_cases h : p.1 = k <;> simp [dget, h, ih] <;> tauto

theorem dget_mem {α : Type} {l : List (String × α)} {k : String} {v : α}
    (h : dget l k = some v) : (k, v) ∈ l := by
  induction l with
  | nil => simp [dget] at h
  | cons p rest ih =>
      obtain ⟨a, b⟩ := p
      by_cases hk : a = k
      · simp [dget, hk] at h
        subst hk
        subst h
        exact List.mem_cons_self _ _
      · simp [dget, hk] at h
        exact List.mem_cons_of_mem _ (ih h)

theorem dget_map {α β : Type} (f : α → β) (l : List (String × α)) (k : String) :
    dget (l.map (fun p => (p.1, f p.2))) k = (dget l k).map f := by
  induction l with
  | nil => simp [dget]
  | cons p rest ih =>
      by_cases h : p.1 = k <;> simp [dget, h, ih]

theorem dinsert_not_has {α : Type} {d : List (String × α)} {k : String} (v : α)
    (h : hasKey d k = false) : dinsert d k v = d ++ [(k, v)] := by
  induction d with
  | nil => simp [dinsert]
  | cons p rest ih =>
      simp only [hasKey, dget] at h
      by_cases hk : p.1 = k
      · simp [hk] at h
      · simp only [dinsert, hk, if_false]
        simp only [hasKey] at ih
        simp [ih (by simpa [hk] using h)]

theorem dget_dinsert_self {α : Type} (d : List (String × α)) (k : String) (v : α) :
    dget (dinsert d k v) k = some v := by
  induction d with
  | nil => simp [dinsert, dget]
  | cons p rest ih =>
      by_cases h : p.1 = k <;> simp [dinsert, dget, h, ih]

theorem dget_dinsert_ne {α : Type} (d : List (String × α)) {k k' : String} (v : α)
    (h : k ≠ k') : dget (dinsert d k v) k' = dget d k' := by
  induction d with
  | nil => simp [dinsert, dget, h]
  | cons p rest ih =>
      obtain ⟨a, b⟩ := p
      by_cases hp : a = k
      · subst hp
        simp [dinsert, dget, h]
      · by_cases hp' : a = k'
        · simp [dinsert, dget, hp, hp', Ne.symm h]
        · simp [dinsert, dget, hp, hp', ih]

theorem hasKey_append {α : Type} (a b : List (String × α)) (k : String) :
    hasKey (a ++ b) k = (hasKey a k || hasKey b k) := by
  simp only [hasKey, dget_append]
  cases dget a k <;> simp [Option.orElse]

theorem hasKey_dinsert_ne {α : Type} (d : List (String × α)) {k k' : String} (v : α)
    (h : k ≠ k') : hasKey (dinsert d k v) k' = hasKey d k' := by
  simp [hasKey, dget_dinsert_ne d v h]

theorem mem_dinsert {α : Type} {d : List (String × α)} {k : String} {v : α} {p : String × α}
    (h : p ∈ dinsert d k v) : p = (k, v) ∨ p ∈ d := by
  induction d with
  | nil => simpa [dinsert] using h
  | cons q rest ih =>
      by_cases hq : q.1 = k
      · simp only [dinsert, hq, if_pos] at h
        rcases List.mem_cons.mp h with h | h
        · exact Or.inl h
        · exact Or.inr (List.mem_cons_of_mem _ h)
      · simp only [dinsert, hq, if_neg, ite_false] at h
        rcases List.mem_cons.mp h with h | h
        · exact Or.inr (List.mem_cons.mpr (Or.inl h))
        · rcases ih h with h' | h'
          · exact Or.inl h'
          · exact Or.inr (List.mem_cons_of_mem _ h')

/-- Repeated Python-dict insertion of converted entries, the common shape of
every read/write loop ignoring provenance. -/
def dinsFold (f : Entry → Entry) : ServerMap → ServerMap → ServerMap
  | acc, [] => acc
  | acc, (n, e) :: rest => dinsFold f (dinsert acc n (f e)) rest

theorem hasKey_eq_false_iff {α : Type} (d : List (String × α)) (k : String) :
    hasKey d k = false ↔ dget d k = none := by
  cases h : dget d k <;> simp [hasKey, h]

theorem map_pair_eta (l : ServerMap) : l.map (fun p => (p.1, p.2)) = l := by
  induction l with
  | nil => rfl
  | cons p rest ih => simp [ih]

theorem dinsFold_fresh (f : Entry → Entry) :
    ∀ (l acc : ServerMap), (∀ k ∈ l.map Prod.fst, hasKey acc k = false) →
      (l.map Prod.fst).Nodup →
      dinsFold f acc l = acc ++ l.map (fun p => (p.1, f p.2)) := by
  intro l
  induction l with
  | nil =>
      intro acc _ _
      simp [dinsFold]
  | cons p rest ih =>
      intro acc hfresh hnodup
      obtain ⟨n, e⟩ := p
      have hn : hasKey acc n = false := hfresh n (by simp)
      have hins : dinsert acc n (f e) = acc ++ [(n, f e)] := dinsert_not_has _ hn
      show dinsFold f (dinsert acc n (f e)) rest = _
      rw [hins, ih]
      · simp
      · intro k hk
        rw [hasKey_append]
        have h1 : hasKey acc k = false := hfresh k (by simp [hk])
        have hne : n ≠ k := by
          simp only [List.map_cons, List.nodup_cons] at hnodup
          intro hkn
          exact hnodup.1 (hkn ▸ hk)
        have h2 : hasKey [(n, f e)] k = false := by simp [hasKey, dget, hne]
        simp [h1, h2]
      · simp only [List.map_cons, List.nodup_cons] at hnodup
        exact hnodup.2

theorem dget_dinsFold_not_mem (f : Entry → Entry) :
    ∀ (l acc : ServerMap) (k : String), k ∉ l.map Prod.fst →
      dget (dinsFold f acc l) k = dget acc k := by
  intro l
  induction l with
  | nil =>
      intro acc k _
      rfl
  | cons p rest ih =>
      intro acc k hk
      obtain ⟨n, e⟩ := p
      simp only [List.map_cons, List.mem_cons] at hk
      push_neg at hk
      show dget (dinsFold f (dinsert acc n (f e)) rest) k = _
      rw [ih _ _ hk.2, dget_dinsert_ne _ _ (fun hh => hk.1 hh.symm)]

theorem claudeGlobalLoop_fst :
    ∀ (l : ServerMap) (acc : ServerMap × List String),
      (claudeGlobalLoop acc l).1 = dinsFold (fun e => e) acc.1 l := by
  intro l
  induction l with
  | nil =>
      intro acc
      rfl
  | cons p rest ih =>
      intro acc
      obtain ⟨n, e⟩ := p
      exact ih _

theorem cursorWindsurfLoop_fst (fname : String) :
    ∀ (l : ServerMap) (acc : ServerMap × List String),
      (cursorWindsurfLoop fname acc l).1 = dinsFold (fun e => e) acc.1 l := by
  intro l
  induction l with
  | nil =>
      intro acc
      rfl
  | cons p rest ih =>
      intro acc
      obtain ⟨n, e⟩ := p
      exact ih _

theorem opencodeReadLoop_fst :
    ∀ (l : ServerMap) (acc : ServerMap × List String),
      (opencodeReadLoop acc l).1 = dinsFold opencodeDecodeEntry acc.1 l := by
  intro l
  induction l with
  | nil =>
      intro acc
      rfl
  | cons p rest ih =>
      intro acc
      obtain ⟨n, e⟩ := p
      exact ih _

theorem codexReadLoop_fst :
    ∀ (l : ServerMap) (acc : ServerMap × List String),
      (∀ p ∈ l, codexDecodeEntry p.2 ≠ []) →
      (codexReadLoop acc l).1 = dinsFold codexDecodeEntry acc.1 l := by
  intro l
  induction l with
  | nil =>
      intro acc _
      rfl
  | cons p rest ih =>
      intro acc hne
      obtain ⟨n, e⟩ := p
      have h : codexDecodeEntry e ≠ [] := hne (n, e) (by simp)
      show (codexReadLoop acc ((n, e) :: rest)).1 = _
      simp only [codexReadLoop]
      rw [if_neg h]
      exact ih _ (fun q hq => hne q (List.mem_cons_of_mem _ hq))

theorem codexWriteLoop_eq :
    ∀ (l acc : ServerMap), (∀ p ∈ l, codexEncodeEntry p.2 ≠ []) →
      codexWriteLoop acc l = dinsFold codexEncodeEntry acc l := by
  intro l
  induction l with
  | nil =>
      intro acc _
      rfl
  | cons p rest ih =>
      intro acc hne
      obtain ⟨n, e⟩ := p
      have h : codexEncodeEntry e ≠ [] := hne (n, e) (by simp)
      show codexWriteLoop acc ((n, e) :: rest) = _
      simp only [codexWriteLoop]
      rw [if_neg h]
      exact ih _ (fun q hq => hne q (List.mem_cons_of_mem _ hq))

theorem opencodeWriteLoop_eq :
    ∀ (l acc : ServerMap),
      opencodeWriteLoop acc l = dinsFold opencodeEncodeEntry acc l := by
  intro l
  induction l with
  | nil =>
      intro acc
      rfl
  | cons p rest ih =>
      intro acc
      obtain ⟨n, e⟩ := p
      exact ih _

theorem getSmap_dinsert_self (d : TopObj) (k : String) (m : ServerMap) :
    getSmap (dinsert d k (TopVal.smap m)) k = m := by
  simp [getSmap, dget_dinsert_self]

/-- First-discovered lookup across the plugin files: the entry of the first
readable plugin file that defines the name. -/
def pluginLookup : List (String × FileState ServerMap) → String → Option Entry
  | [], _ => none
  | (_, FileState.ok m) :: rest, x =>
      match dget m x with
      | some e => some e
      | none => pluginLookup rest x
  | _ :: rest, x => pluginLookup rest x

theorem claudePluginLoop_preserve (pn : String) :
    ∀ (m : ServerMap) (acc : ServerMap × List String) (x : String) (A : Entry),
      dget acc.1 x = some A → dget (claudePluginLoop pn acc m).1 x = some A := by
  intro m
  induction m with
  | nil =>
      intro acc x A h
      exact h
  | cons p rest ih =>
      intro acc x A h
      obtain ⟨n, e⟩ := p
      show dget (claudePluginLoop pn acc ((n, e) :: rest)).1 x = some A
      by_cases hk : hasKey acc.1 n
      · simp only [claudePluginLoop, hk, if_true]
        exact ih _ _ _ h
      · simp only [claudePluginLoop, hk, Bool.false_eq_true, if_false]
        apply ih
        have hnx : n ≠ x := by
          intro hh
          subst hh
          rw [hasKey, h] at hk
          simp at hk
        rw [dget_dinsert_ne _ _ hnx]
        exact h

theorem claudePluginsLoop_preserve :
    ∀ (ps : List (String × FileState ServerMap)) (acc : ServerMap × List String)
      (x : String) (A : Entry),
      dget acc.1 x = some A → dget (claudePluginsLoop acc ps).1 x = some A := by
  intro ps
  induction ps with
  | nil =>
      intro acc x A h
      exact h
  | cons q rest ih =>
      intro acc x A h
      obtain ⟨pn, f⟩ := q
      cases f with
      | ok m => exact ih _ _ _ (claudePluginLoop_preserve pn m acc x A h)
      | absent => exact ih _ _ _ h
      | malformed => exact ih _ _ _ h

theorem claudePluginLoop_none (pn : String) :
    ∀ (m : ServerMap) (acc : ServerMap × List String) (x : String),
      dget acc.1 x = none →
      dget (claudePluginLoop pn acc m).1 x = (dget m x).orElse (fun _ => none) := by
  intro m
  induction m with
  | nil =>
      intro acc x h
      simpa [dget] using h
  | cons p rest ih =>
      intro acc x h
      obtain ⟨n, e⟩ := p
      by_cases hnx : n = x
      · subst hnx
        have hk : hasKey acc.1 n = false := by
          rw [hasKey_eq_false_iff]
          exact h
        show dget (claudePluginLoop pn acc ((n, e) :: rest)).1 n = _
        simp only [claudePluginLoop, hk, Bool.false_eq_true, if_false]
        have hsome : dget (dinsert acc.1 n e) n = some e := dget_dinsert_self _ _ _
        rw [claudePluginLoop_preserve pn rest _ n e hsome]
        simp [dget]
      · show dget (claudePluginLoop pn acc ((n, e) :: rest)).1 x = _
        by_cases hk : hasKey acc.1 n
        · simp only [claudePluginLoop, hk, if_true]
          rw [ih _ _ h]
          simp [dget, hnx]
        · simp only [claudePluginLoop, hk, Bool.false_eq_true, if_false]
          rw [ih]
          · simp [dget, hnx]
          · rw [dget_dinsert_ne _ _ hnx]
            exact h

theorem claudePluginsLoop_none :
    ∀ (ps : List (String × FileState ServerMap)) (acc : ServerMap × List String)
      (x : String),
      dget acc.1 x = none →
      dget (claudePluginsLoop acc ps).1 x = pluginLookup ps x := by
  intro ps
  induction ps with
  | nil =>
      intro acc x h
      exact h
  | cons q rest ih =>
      intro acc x h
      obtain ⟨pn, f⟩ := q
      cases f with
      | ok m =>
          show dget (claudePluginsLoop (claudePluginLoop pn acc m) rest).1 x = _
          have hinner := claudePluginLoop_none pn m acc x h
          cases hm : dget m x with
          | some e =>
              rw [hm] at hinner
              simp only [Option.orElse] at hinner
              have := claudePluginsLoop_preserve rest _ x e hinner
              rw [this]
              simp [pluginLookup, hm]
          | none =>
              rw [hm] at hinner
              simp only [Option.orElse] at hinner
              rw [ih _ _ hinner]
              simp [pluginLookup, hm]
      | absent =>
          show dget (claudePluginsLoop acc rest).1 x = _
          rw [ih _ _ h]
          rfl
      | malformed =>
          show dget (claudePluginsLoop acc rest).1 x = _
          rw [ih _ _ h]
          rfl

theorem claudePluginsLoop_bad :
    ∀ (ps : List (String × FileState ServerMap)) (acc : ServerMap × List String),
      (∀ q ∈ ps, q.2 = FileState.absent ∨ q.2 = FileState.malformed) →
      claudePluginsLoop acc ps = acc := by
  intro ps
  induction ps with
  | nil =>
      intro acc _
      rfl
  | cons q rest ih =>
      intro acc hbad
      obtain ⟨pn, f⟩ := q
      rcases hbad (pn, f) (by simp) with h | h <;> subst h
      · exact ih _ (fun r hr => hbad r (List.mem_cons_of_mem _ hr))
      · exact ih _ (fun r hr => hbad r (List.mem_cons_of_mem _ hr))

/-- Concrete conflict scenario: the global file defines server x with
command A while a plugin file also defines x with command B. -/
def fsC1 : FS :=
  { FS.empty with
    claudeGlobal := FileState.ok [("mcpServers", TopVal.smap [("x", [("command", Val.s "A")])])],
    claudePlugins := [("plug", FileState.ok [("x", [("command", Val.s "B")])])] }

/-- C1: for Claude Code, when the same server name appears in more than one
source, read_mcp_servers returns the entry from the global ~/.claude.json
file whenever the name appears there, and otherwise the entry from the
first-discovered plugin .mcp.json file that defines the name; concretely,
with the global file defining x with command A and a plugin file defining x
with command B, the merged map sends x to the command-A entry. -/
theorem c1_claude_merge_precedence :
    (∀ (fs : FS) (d : TopObj) (x : String),
      fs.claudeGlobal = FileState.ok d →
      ((getSmap d "mcpServers").map Prod.fst).Nodup →
      (∀ A : Entry, dget (getSmap d "mcpServers") x = some A →
         dget (read_mcp_servers Platform.claudeCode fs).1 x = some A) ∧
      (dget (getSmap d "mcpServers") x = none →
         dget (read_mcp_servers Platform.claudeCode fs).1 x = pluginLookup fs.claudePlugins x))
    ∧ (∀ (fs : FS) (x : String),
        (fs.claudeGlobal = FileState.absent ∨ fs.claudeGlobal = FileState.malformed) →
        dget (read_mcp_servers Platform.claudeCode fs).1 x = pluginLookup fs.claudePlugins x)
    ∧ dget (read_mcp_servers Platform.claudeCode fsC1).1 "x" = some [("command", Val.s "A")] := by
  refine ⟨?_, ?_, by decide⟩
  · intro fs d x hglob hnodup
    have hread : read_mcp_servers Platform.claudeCode fs
        = claudePluginsLoop (claudeGlobalLoop ([], []) (getSmap d "mcpServers"))
            fs.claudePlugins := by
      simp [read_mcp_servers, read_claude_mcp, hglob]
    constructor
    · intro A hA
      rw [hread]
      apply claudePluginsLoop_preserve
      rw [claudeGlobalLoop_fst]
      rw [dinsFold_fresh (fun e => e) (getSmap d "mcpServers") [] (fun k _ => rfl) hnodup]
      simpa [map_pair_eta] using hA
    · intro hnone
      rw [hread]
      apply claudePluginsLoop_none
      rw [claudeGlobalLoop_fst]
      rw [dget_dinsFold_not_mem]
      · rfl
      · exact (dget_eq_none_iff _ _).mp hnone
  · intro fs x hbad
    have hread : read_mcp_servers Platform.claudeCode fs
        = claudePluginsLoop ([], []) fs.claudePlugins := by
      rcases hbad with h | h <;> simp [read_mcp_servers, read_claude_mcp, h]
    rw [hread]
    exact claudePluginsLoop_none _ _ _ rfl

/-- Witness for C1: the general statement applied at a concrete state, for
a name the global file does not define. -/
theorem c1_claude_merge_precedence_witness :
    dget (read_mcp_servers Platform.claudeCode fsC1).1 "y" = pluginLookup fsC1.claudePlugins "y" :=
  (c1_claude_merge_precedence.1 fsC1
    [("mcpServers", TopVal.smap [("x", [("command", Val.s "A")])])] "y" rfl (by decide)).2
    (by decide)

/-- C2: the Codex decoder classifies on presence of the url key, not on a
type field: an entry containing url decodes to the remote canonical shape
(type http, the url, headers taken from http_headers) with command and args
dropped even if erroneously present; an entry without url decodes to a
stdio canonical entry carrying whichever of command, args and env are
present. -/
theorem c2_codex_decode_discrimination :
    ∀ config : Entry,
      (∀ u, dget config "url" = some u →
        dget (codexDecodeEntry config) "type" = some (Val.s "http") ∧
        dget (codexDecodeEntry config) "url" = some u ∧
        dget (codexDecodeEntry config) "headers" = dget config "http_headers" ∧
        dget (codexDecodeEntry config) "command" = none ∧
        dget (codexDecodeEntry config) "args" = none ∧
        dget (codexDecodeEntry config) "env" = none) ∧
      (dget config "url" = none →
        dget (codexDecodeEntry config) "command" = dget config "command" ∧
        dget (codexDecodeEntry config) "args" = dget config "args" ∧
        dget (codexDecodeEntry config) "env" = dget config "env" ∧
        dget (codexDecodeEntry config) "url" = none ∧
        dget (codexDecodeEntry config) "type" = none) := by
  intro config
  constructor
  · intro u hu
    cases hh : dget config "http_headers" <;>
      simp [codexDecodeEntry, hu, hh, dget]
  · intro hu
    cases hc : dget config "command" <;> cases ha : dget config "args" <;>
      cases he : dget config "env" <;>
      simp [codexDecodeEntry, hu, hc, ha, he, dget]

/-- Witness for C2: a dual-shaped Codex entry holding both url and command
decodes to the remote shape with the command dropped. -/
theorem c2_codex_decode_discrimination_witness :
    dget (codexDecodeEntry [("url", Val.s "U"), ("command", Val.s "B")]) "type"
        = some (Val.s "http") ∧
    dget (codexDecodeEntry [("url", Val.s "U"), ("command", Val.s "B")]) "command" = none :=
  ⟨((c2_codex_decode_discrimination [("url", Val.s "U"), ("command", Val.s "B")]).1
      (Val.s "U") (by decide)).1,
   ((c2_codex_decode_discrimination [("url", Val.s "U"), ("command", Val.s "B")]).1
      (Val.s "U") (by decide)).2.2.2.1⟩

theorem mem_dinsFold (f : Entry → Entry) :
    ∀ (l acc : ServerMap) (p : String × Entry), p ∈ dinsFold f acc l →
      p ∈ acc ∨ ∃ q ∈ l, p = (q.1, f q.2) := by
  intro l
  induction l with
  | nil =>
      intro acc p h
      exact Or.inl h
  | cons q rest ih =>
      intro acc p h
      obtain ⟨n, e⟩ := q
      rcases ih _ p h with h' | ⟨r, hr, hp⟩
      · rcases mem_dinsert h' with h'' | h''
        · exact Or.inr ⟨(n, e), by simp, h''⟩
        · exact Or.inl h''
      · exact Or.inr ⟨r, List.mem_cons_of_mem _ hr, hp⟩

theorem opencodeEncodeEntry_enabled (config : Entry) :
    dget (opencodeEncodeEntry config) "enabled" = some (Val.b true) := by
  simp only [opencodeEncodeEntry]
  by_cases h : (dget config "type").getD (Val.s "stdio") = Val.s "stdio"
  · rw [if_pos h]
    cases dget config "env" <;> simp [dget]
  · rw [if_neg h]
    cases dget config "headers" <;> simp [dget]

/-- C3: translating the canonical map sending weather to command wx with
args --json through the OpenCode encoder produces, under the owned key mcp,
exactly the entry with type local, the fused command array, and enabled
true; in general the OpenCode encoder fuses command and args into one array
and sets enabled true on every entry it writes. -/
theorem c3_opencode_encode_shape :
    (getSmap (write_opencode_mcp FileState.absent
        [("weather", [("command", Val.s "wx"), ("args", Val.ls ["--json"])])]) "mcp"
      = [("weather",
          [("type", Val.s "local"), ("command", Val.ls ["wx", "--json"]),
           ("enabled", Val.b true)])])
    ∧ (∀ (existing : FileState TopObj) (servers : ServerMap) (p : String × Entry),
        p ∈ getSmap (write_opencode_mcp existing servers) "mcp" →
        dget p.2 "enabled" = some (Val.b true))
    ∧ (∀ (config : Entry) (c : String) (l : List String),
        (dget config "type" = none ∨ dget config "type" = some (Val.s "stdio")) →
        dget config "command" = some (Val.s c) →
        dget config "args" = some (Val.ls l) →
        dget (opencodeEncodeEntry config) "command" = some (Val.ls (c :: l))) := by
  refine ⟨by decide, ?_, ?_⟩
  · intro existing servers p hp
    rw [write_opencode_mcp, getSmap_dinsert_self, opencodeWriteLoop_eq] at hp
    rcases mem_dinsFold opencodeEncodeEntry servers [] p hp with h | ⟨q, _, hq⟩
    · simp at h
    · rw [hq]
      exact opencodeEncodeEntry_enabled q.2
  · intro config c l ht hc ha
    rcases ht with h | h <;> simp [opencodeEncodeEntry, h, hc, ha, getS, dget]

/-- Witness for C3: the enabled flag of the concretely written weather
entry, obtained from the general statement. -/
theorem c3_opencode_encode_shape_witness :
    dget [("type", Val.s "local"), ("command", Val.ls ["wx", "--json"]),
          ("enabled", Val.b true)] "enabled" = some (Val.b true) :=
  c3_opencode_encode_shape.2.1 FileState.absent
    [("weather", [("command", Val.s "wx"), ("args", Val.ls ["--json"])])]
    ("weather",
     [("type", Val.s "local"), ("command", Val.ls ["wx", "--json"]), ("enabled", Val.b true)])
    (by decide)

/-- C5: for every platform, encoding a server map into an existing parsed
config file replaces only the single owned server-map key and leaves every
other top-level key unchanged; concretely, a Codex file with an unrelated
top-level table keeps that table after encode. -/
theorem c5_sibling_key_preservation :
    (∀ (p : Platform) (d : TopObj) (servers : ServerMap) (k : String),
      k ≠ ownedKey p → dget (encodeFile p (FileState.ok d) servers) k = dget d k)
    ∧ dget (write_codex_mcp (FileState.ok [("other", TopVal.other 7)])
        [("a", [("command", Val.s "c")])]) "other" = some (TopVal.other 7) := by
  constructor
  · intro p d servers k hk
    cases p <;>
      simp only [encodeFile, write_claude_mcp, write_codex_mcp, write_opencode_mcp,
        write_cursor_windsurf_mcp, loadTop, ownedKey] at hk ⊢ <;>
      exact dget_dinsert_ne _ _ (fun h => hk h.symm)
  · decide

/-- Witness for C5: the general frame statement applied to the Codex file
with the unrelated table. -/
theorem c5_sibling_key_preservation_witness :
    dget (encodeFile Platform.codex (FileState.ok [("other", TopVal.other 7)])
      [("a", [("command", Val.s "c")])]) "other" = some (TopVal.other 7) := by
  rw [c5_sibling_key_preservation.1 Platform.codex [("other", TopVal.other 7)]
    [("a", [("command", Val.s "c")])] "other" (by decide)]
  decide

theorem nodupKeys_eq {α : Type} :
    ∀ {l : List (String × α)}, (l.map Prod.fst).Nodup →
      ∀ {k : String} {a b : α}, (k, a) ∈ l → (k, b) ∈ l → a = b := by
  intro l
  induction l with
  | nil =>
      intro _ k a b ha _
      simp at ha
  | cons p rest ih =>
      intro hnodup k a b ha hb
      simp only [List.map_cons, List.nodup_cons] at hnodup
      rcases List.mem_cons.mp ha with ha' | ha' <;> rcases List.mem_cons.mp hb with hb' | hb'
      · have h := ha'.trans hb'.symm
        cases h
        rfl
      · exfalso
        apply hnodup.1
        have hk : k ∈ rest.map Prod.fst := List.mem_map_of_mem Prod.fst hb'
        rw [← ha']
        exact hk
      · exfalso
        apply hnodup.1
        have hk : k ∈ rest.map Prod.fst := List.mem_map_of_mem Prod.fst ha'
        rw [← hb']
        exact hk
      · exact ih hnodup.2 ha' hb'

theorem codexWriteLoop_mem :
    ∀ (l acc : ServerMap) (p : String × Entry), p ∈ codexWriteLoop acc l →
      p ∈ acc ∨ ∃ q ∈ l, p = (q.1, codexEncodeEntry q.2) ∧ codexEncodeEntry q.2 ≠ [] := by
  intro l
  induction l with
  | nil =>
      intro acc p h
      exact Or.inl h
  | cons q rest ih =>
      intro acc p h
      obtain ⟨n, e⟩ := q
      by_cases hcc : codexEncodeEntry e = []
      · show p ∈ acc ∨ _
        rw [show codexWriteLoop acc ((n, e) :: rest) = codexWriteLoop acc rest from by
          simp only [codexWriteLoop]
          rw [if_pos hcc]] at h
        rcases ih _ p h with h' | ⟨r, hr, hp⟩
        · exact Or.inl h'
        · exact Or.inr ⟨r, List.mem_cons_of_mem _ hr, hp⟩
      · rw [show codexWriteLoop acc ((n, e) :: rest)
              = codexWriteLoop (dinsert acc n (codexEncodeEntry e)) rest from by
          simp only [codexWriteLoop]
          rw [if_neg hcc]] at h
        rcases ih _ p h with h' | ⟨r, hr, hp⟩
        · rcases mem_dinsert h' with h'' | h''
          · exact Or.inr ⟨(n, e), by simp, h'', hcc⟩
          · exact Or.inl h''
        · exact Or.inr ⟨r, List.mem_cons_of_mem _ hr, hp⟩

theorem codexWriteLoop_hasKey_false :
    ∀ (l acc : ServerMap) (name : String), hasKey acc name = false →
      (∀ e', (name, e') ∈ l → codexEncodeEntry e' = []) →
      hasKey (codexWriteLoop acc l) name = false := by
  intro l
  induction l with
  | nil =>
      intro acc name h _
      exact h
  | cons q rest ih =>
      intro acc name h hempty
      obtain ⟨n, e⟩ := q
      by_cases hcc : codexEncodeEntry e = []
      · rw [show codexWriteLoop acc ((n, e) :: rest) = codexWriteLoop acc rest from by
          simp only [codexWriteLoop]
          rw [if_pos hcc]]
        exact ih _ _ h (fun e' he' => hempty e' (List.mem_cons_of_mem _ he'))
      · rw [show codexWriteLoop acc ((n, e) :: rest)
              = codexWriteLoop (dinsert acc n (codexEncodeEntry e)) rest from by
          simp only [codexWriteLoop]
          rw [if_neg hcc]]
        have hne : n ≠ name := by
          intro hh
          exact hcc (hempty e (by rw [hh]; exact List.mem_cons_self _ _))
        apply ih
        · rw [hasKey_dinsert_ne _ _ hne]
          exact h
        · exact fun e' he' => hempty e' (List.mem_cons_of_mem _ he')

/-- C6: entries whose mapping to the destination yields no usable fields
are omitted entirely by the Codex encoder: the written mcp_servers table
never contains an empty block, and a server whose canonical entry encodes
to nothing does not appear under its name at all. -/
theorem c6_codex_drops_empty_entries :
    (∀ (existing : FileState TopObj) (servers : ServerMap) (p : String × Entry),
       p ∈ getSmap (write_codex_mcp existing servers) "mcp_servers" → p.2 ≠ [])
    ∧ (∀ (existing : FileState TopObj) (servers : ServerMap) (name : String) (e : Entry),
        (servers.map Prod.fst).Nodup → (name, e) ∈ servers → codexEncodeEntry e = [] →
        hasKey (getSmap (write_codex_mcp existing servers) "mcp_servers") name = false) := by
  constructor
  · intro existing servers p hp
    rw [write_codex_mcp, getSmap_dinsert_self] at hp
    rcases codexWriteLoop_mem servers [] p hp with h | ⟨q, _, hp', hne⟩
    · simp at h
    · rw [hp']
      exact hne
  · intro existing servers name e hnodup hmem hempty
    rw [write_codex_mcp, getSmap_dinsert_self]
    apply codexWriteLoop_hasKey_false servers [] name rfl
    intro e' he'
    rw [nodupKeys_eq hnodup he' hmem]
    exact hempty

/-- Witness for C6: a canonical entry typed http but carrying no url maps
to no usable Codex fields and is dropped from the written table. -/
theorem c6_codex_drops_empty_entries_witness :
    hasKey (getSmap (write_codex_mcp FileState.absent [("r", [("type", Val.s "http")])])
      "mcp_servers") "r" = false :=
  c6_codex_drops_empty_entries.2 FileState.absent [("r", [("type", Val.s "http")])] "r"
    [("type", Val.s "http")] (by decide) (by decide) (by decide)

/-- C10: the Codex and OpenCode encoders select the transport shape solely
from the canonical type field, defaulting to stdio when type is absent: a
canonical entry with a url but no type key is treated as stdio by both, so
the Codex encoder (finding no command, args or env) drops it entirely and
the OpenCode encoder writes it as a local entry whose fused command array
is one empty string with enabled true; neither emits it as remote, in
contrast to the Codex decoder, which discriminates on url presence. -/
theorem c10_encoders_default_stdio :
    ∀ config : Entry, dget config "type" = none →
      ((dget (codexEncodeEntry config) "url" = none ∧
        dget (codexEncodeEntry config) "http_headers" = none) ∧
       dget (opencodeEncodeEntry config) "type" = some (Val.s "local")) ∧
      (∀ u, dget config "url" = some u →
        dget config "command" = none → dget config "args" = none → dget config "env" = none →
        codexEncodeEntry config = [] ∧
        getSmap (write_codex_mcp FileState.absent [("srv", config)]) "mcp_servers" = [] ∧
        opencodeEncodeEntry config
          = [("type", Val.s "local"), ("command", Val.ls [""]), ("enabled", Val.b true)]) := by
  intro config ht
  constructor
  · constructor
    · constructor <;>
        (cases hc : dget config "command" <;> cases ha : dget config "args" <;>
          cases he : dget config "env" <;>
          simp [codexEncodeEntry, ht, hc, ha, he, dget])
    · cases he : dget config "env" <;> simp [opencodeEncodeEntry, ht, he, dget]
  · intro u _ hc ha he
    have hcodex : codexEncodeEntry config = [] := by
      simp [codexEncodeEntry, ht, hc, ha, he]
    refine ⟨hcodex, ?_, ?_⟩
    · rw [write_codex_mcp, getSmap_dinsert_self]
      show (if codexEncodeEntry config = [] then codexWriteLoop [] [] else _) = []
      rw [if_pos hcodex]
      rfl
    · simp [opencodeEncodeEntry, ht, hc, ha, he, getS]

/-- Witness for C10: a url-only canonical entry is dropped by the Codex
encoder and written as a local empty-command entry by OpenCode. -/
theorem c10_encoders_default_stdio_witness :
    codexEncodeEntry [("url", Val.s "U")] = [] ∧
    opencodeEncodeEntry [("url", Val.s "U")]
      = [("type", Val.s "local"), ("command", Val.ls [""]), ("enabled", Val.b true)] :=
  ⟨((c10_encoders_default_stdio [("url", Val.s "U")] (by decide)).2 (Val.s "U")
      (by decide) (by decide) (by decide) (by decide)).1,
   ((c10_encoders_default_stdio [("url", Val.s "U")] (by decide)).2 (Val.s "U")
      (by decide) (by decide) (by decide) (by decide)).2.2⟩

/-- A canonical stdio entry with non-empty command: type absent or stdio,
command a non-empty string, args (when present) a string list, env (when
present) a string map, and no url (the canonical invariant that no entry
has both a command and a url). -/
structure WfStdio (e : Entry) : Prop where
  type_ok : dget e "type" = none ∨ dget e "type" = some (Val.s "stdio")
  command_ok : ∃ c : String, c ≠ "" ∧ dget e "command" = some (Val.s c)
  args_ok : dget e "args" = none ∨ ∃ l : List String, dget e "args" = some (Val.ls l)
  env_ok : dget e "env" = none ∨ ∃ v, dget e "env" = some (Val.sm v)
  url_none : dget e "url" = none

/-- A canonical map of well-formed stdio entries with distinct names. -/
def WfStdioMap (m : ServerMap) : Prop :=
  (m.map Prod.fst).Nodup ∧ ∀ p ∈ m, WfStdio p.2

/-- The canonical args value of an entry, an absent args key meaning the
empty argument list. -/
def argsOf (e : Entry) : Val :=
  (dget e "args").getD (Val.ls [])

/-- Equality of the canonical stdio payload of two entries: same command,
same argument list, same env. -/
def sameStdio (e₁ e₂ : Entry) : Prop :=
  dget e₁ "command" = dget e₂ "command" ∧ argsOf e₁ = argsOf e₂ ∧
  dget e₁ "env" = dget e₂ "env"

/-- Equivalence of two server maps: the same names in the same order, and
entrywise the same canonical stdio payload. -/
def EquivMap (m₁ m₂ : ServerMap) : Prop :=
  m₁.map Prod.fst = m₂.map Prod.fst ∧
  ∀ (n : String) (e₁ e₂ : Entry), dget m₁ n = some e₁ → dget m₂ n = some e₂ →
    sameStdio e₁ e₂

theorem equivMap_refl (m : ServerMap) : EquivMap m m := by
  refine ⟨rfl, fun n e₁ e₂ h₁ h₂ => ?_⟩
  rw [h₁] at h₂
  cases h₂
  exact ⟨rfl, rfl, rfl⟩

theorem keys_map_entry (f : Entry → Entry) (m : ServerMap) :
    (m.map (fun p => (p.1, f p.2))).map Prod.fst = m.map Prod.fst := by
  induction m with
  | nil => rfl
  | cons p rest ih => simp [ih]

theorem codex_entry_roundtrip {e : Entry} (hw : WfStdio e) :
    codexEncodeEntry e ≠ [] ∧
    codexDecodeEntry (codexEncodeEntry e) = codexEncodeEntry e ∧
    sameStdio e (codexEncodeEntry e) := by
  obtain ⟨ht, ⟨c, hc0, hc⟩, ha, he, hu⟩ := hw
  have hT : ¬((dget e "type").getD (Val.s "stdio") = Val.s "sse"
      ∨ (dget e "type").getD (Val.s "stdio") = Val.s "http") := by
    rcases ht with h | h <;> simp [h]
  rcases ha with ha | ⟨l, ha⟩ <;> rcases he with he | ⟨v, he⟩ <;>
    simp [codexEncodeEntry, codexDecodeEntry, sameStdio, argsOf, hT, hc, ha, he, dget]

theorem opencode_entry_roundtrip {e : Entry} (hw : WfStdio e) :
    sameStdio e (opencodeDecodeEntry (opencodeEncodeEntry e)) := by
  obtain ⟨ht, ⟨c, hc0, hc⟩, ha, he, hu⟩ := hw
  have hT : (dget e "type").getD (Val.s "stdio") = Val.s "stdio" := by
    rcases ht with h | h <;> simp [h]
  rcases ha with ha | ⟨l, ha⟩
  · rcases he with he | ⟨v, he⟩ <;>
      simp [opencodeEncodeEntry, opencodeDecodeEntry, sameStdio, argsOf, getS, getLs,
        hT, hc, ha, he, dget]
  · rcases he with he | ⟨v, he⟩ <;> cases l <;>
      simp [opencodeEncodeEntry, opencodeDecodeEntry, sameStdio, argsOf, getS, getLs,
        hT, hc, ha, he, dget]

/-- C4: for every platform, a canonical map containing only well-formed
stdio entries with non-empty command survives an encode-then-decode round
trip on that platform: the same server names, and for each name the same
command, args and env values. -/
theorem c4_stdio_roundtrip :
    ∀ (p : Platform) (m : ServerMap), WfStdioMap m →
      EquivMap m (read_mcp_servers p (writeFS p m FS.empty)).1 := by
  intro p m hw
  obtain ⟨hnodup, hwf⟩ := hw
  cases p with
  | claudeCode =>
      have h1 : (read_mcp_servers Platform.claudeCode
          (writeFS Platform.claudeCode m FS.empty)).1 = m := by
        show (claudeGlobalLoop ([], []) m).1 = m
        rw [claudeGlobalLoop_fst,
          dinsFold_fresh (fun e => e) m [] (fun k _ => rfl) hnodup]
        simp [map_pair_eta]
      rw [h1]
      exact equivMap_refl m
  | cursor =>
      have h1 : (read_mcp_servers Platform.cursor
          (writeFS Platform.cursor m FS.empty)).1 = m := by
        show (cursorWindsurfLoop "mcp.json" ([], []) m).1 = m
        rw [cursorWindsurfLoop_fst,
          dinsFold_fresh (fun e => e) m [] (fun k _ => rfl) hnodup]
        simp [map_pair_eta]
      rw [h1]
      exact equivMap_refl m
  | windsurf =>
      have h1 : (read_mcp_servers Platform.windsurf
          (writeFS Platform.windsurf m FS.empty)).1 = m := by
        show (cursorWindsurfLoop "mcp_config.json" ([], []) m).1 = m
        rw [cursorWindsurfLoop_fst,
          dinsFold_fresh (fun e => e) m [] (fun k _ => rfl) hnodup]
        simp [map_pair_eta]
      rw [h1]
      exact equivMap_refl m
  | codex =>
      have hne : ∀ q ∈ m, codexEncodeEntry q.2 ≠ [] :=
        fun q hq => (codex_entry_roundtrip (hwf q hq)).1
      have hew : codexWriteLoop [] m = m.map (fun q => (q.1, codexEncodeEntry q.2)) := by
        rw [codexWriteLoop_eq m [] hne,
          dinsFold_fresh codexEncodeEntry m [] (fun k _ => rfl) hnodup]
        rfl
      have hnodupem : ((m.map (fun q => (q.1, codexEncodeEntry q.2))).map Prod.fst).Nodup := by
        rw [keys_map_entry]
        exact hnodup
      have hneem : ∀ q ∈ m.map (fun q => (q.1, codexEncodeEntry q.2)),
          codexDecodeEntry q.2 ≠ [] := by
        intro q hq
        rcases List.mem_map.mp hq with ⟨r, hr, hqr⟩
        have h := codex_entry_roundtrip (hwf r hr)
        rw [← hqr]
        show codexDecodeEntry (codexEncodeEntry r.2) ≠ []
        rw [h.2.1]
        exact h.1
      have h1 : (read_mcp_servers Platform.codex (writeFS Platform.codex m FS.empty)).1
          = (m.map (fun q => (q.1, codexEncodeEntry q.2))).map
              (fun q => (q.1, codexDecodeEntry q.2)) := by
        show (codexReadLoop ([], [])
            (getSmap (dinsert [] "mcp_servers" (TopVal.smap (codexWriteLoop [] m)))
              "mcp_servers")).1 = _
        rw [getSmap_dinsert_self, hew,
          codexReadLoop_fst _ ([], []) hneem,
          dinsFold_fresh codexDecodeEntry _ [] (fun k _ => rfl) hnodupem]
        rfl
      constructor
      · rw [h1, keys_map_entry, keys_map_entry]
      · intro n e₁ e₂ hg1 hg2
        rw [h1, dget_map, dget_map, hg1] at hg2
        simp only [Option.map_some'] at hg2
        have h := codex_entry_roundtrip (hwf (n, e₁) (dget_mem hg1))
        cases hg2
        show sameStdio e₁ (codexDecodeEntry (codexEncodeEntry e₁))
        rw [h.2.1]
        exact h.2.2
  | openCode =>
      have hew : opencodeWriteLoop [] m = m.map (fun q => (q.1, opencodeEncodeEntry q.2)) := by
        rw [opencodeWriteLoop_eq m [],
          dinsFold_fresh opencodeEncodeEntry m [] (fun k _ => rfl) hnodup]
        rfl
      have hnodupem : ((m.map (fun q => (q.1, opencodeEncodeEntry q.2))).map Prod.fst).Nodup := by
        rw [keys_map_entry]
        exact hnodup
      have h1 : (read_mcp_servers Platform.openCode (writeFS Platform.openCode m FS.empty)).1
          = (m.map (fun q => (q.1, opencodeEncodeEntry q.2))).map
              (fun q => (q.1, opencodeDecodeEntry q.2)) := by
        show (opencodeReadLoop ([], [])
            (getSmap (dinsert [] "mcp" (TopVal.smap (opencodeWriteLoop [] m))) "mcp")).1 = _
        rw [getSmap_dinsert_self, hew,
          opencodeReadLoop_fst _ ([], []),
          dinsFold_fresh opencodeDecodeEntry _ [] (fun k _ => rfl) hnodupem]
        rfl
      constructor
      · rw [h1, keys_map_entry, keys_map_entry]
      · intro n e₁ e₂ hg1 hg2
        rw [h1, dget_map, dget_map, hg1] at hg2
        simp only [Option.map_some'] at hg2
        cases hg2
        exact opencode_entry_roundtrip (hwf (n, e₁) (dget_mem hg1))

/-- Witness for C4: the round trip applied to a concrete one-entry stdio
map on the Codex platform. -/
theorem c4_stdio_roundtrip_witness :
    EquivMap [("weather", [("command", Val.s "wx"), ("args", Val.ls ["--json"])])]
      (read_mcp_servers Platform.codex (writeFS Platform.codex
        [("weather", [("command", Val.s "wx"), ("args", Val.ls ["--json"])])] FS.empty)).1 :=
  c4_stdio_roundtrip Platform.codex
    [("weather", [("command", Val.s "wx"), ("args", Val.ls ["--json"])])]
    ⟨by decide, by
      intro q hq
      rw [List.mem_singleton.mp hq]
      exact ⟨Or.inl rfl, ⟨"wx", by decide, rfl⟩, Or.inr ⟨["--json"], rfl⟩,
        Or.inl rfl, rfl⟩⟩

/-- C8: for every platform, decoding config files that are missing or fail
to parse yields the empty server map and empty provenance; the embedded
readers are total, so no exception reaches the caller. -/
theorem c8_missing_or_malformed_reads_empty :
    ∀ (p : Platform) (fs : FS),
      (globalFile p fs = FileState.absent ∨ globalFile p fs = FileState.malformed) →
      (∀ q ∈ fs.claudePlugins, q.2 = FileState.absent ∨ q.2 = FileState.malformed) →
      read_mcp_servers p fs = ([], []) := by
  intro p fs hg hp
  cases p with
  | claudeCode =>
      have h : fs.claudeGlobal = FileState.absent ∨ fs.claudeGlobal = FileState.malformed := hg
      have h1 : read_mcp_servers Platform.claudeCode fs
          = claudePluginsLoop ([], []) fs.claudePlugins := by
        rcases h with h | h <;> simp [read_mcp_servers, read_claude_mcp, h]
      rw [h1, claudePluginsLoop_bad fs.claudePlugins ([], []) hp]
  | codex =>
      have h : fs.codexGlobal = FileState.absent ∨ fs.codexGlobal = FileState.malformed := hg
      rcases h with h | h <;> simp [read_mcp_servers, read_codex_mcp, h]
  | openCode =>
      have h : fs.opencodeGlobal = FileState.absent ∨ fs.opencodeGlobal = FileState.malformed := hg
      rcases h with h | h <;> simp [read_mcp_servers, read_opencode_mcp, h]
  | cursor =>
      have h : fs.cursorGlobal = FileState.absent ∨ fs.cursorGlobal = FileState.malformed := hg
      rcases h with h | h <;> simp [read_mcp_servers, read_cursor_windsurf_mcp, h]
  | windsurf =>
      have h : fs.windsurfGlobal = FileState.absent ∨ fs.windsurfGlobal = FileState.malformed := hg
      rcases h with h | h <;> simp [read_mcp_servers, read_cursor_windsurf_mcp, h]

/-- A file-system state whose Codex config fails to parse. -/
def fsC8 : FS := { FS.empty with codexGlobal := FileState.malformed }

/-- Witness for C8: a malformed Codex config decodes to the empty map. -/
theorem c8_missing_or_malformed_reads_empty_witness :
    read_mcp_servers Platform.codex fsC8 = ([], []) :=
  c8_missing_or_malformed_reads_empty Platform.codex fsC8 (Or.inr rfl)
    (fun q hq => absurd hq (List.not_mem_nil q))

/-- Modelled from the spec: the count the specification prescribes for the
non-Claude platforms, the number of keys under the owned native key of the
parsed global file, zero when the file is missing or unparseable. -/
def nativeKeyCount (p : Platform) (fs : FS) : Nat :=
  match globalFile p fs with
  | FileState.ok d => (getSmap d (ownedKey p)).length
  | _ => 0

/-- A file-system state with no Claude global file but one plugin file
defining one server. -/
def fsC7 : FS := { FS.empty with claudePlugins := [("plug", FileState.ok [("x", [])])] }

/-- Counterexample to C7: with the Claude global file absent but a plugin
file defining server x, the count is zero while the merged map returned by
read_mcp_servers has one entry. -/
theorem c7_count_counterexample :
    ¬ (count_mcp_servers Platform.claudeCode fsC7
        = (read_mcp_servers Platform.claudeCode fsC7).1.length) := by decide

/-- C7 amended: the Claude count equals the size of the merged
global-plus-plugin map whenever the global file exists (even when it fails
to parse), but is zero when the global file is absent, even if plugin files
define servers; for every other platform the count is the number of keys
under the owned native key of its global file, zero when that file is
missing or unparseable. -/
theorem c7_count_amended :
    ∀ (p : Platform) (fs : FS),
      (p = Platform.claudeCode → fs.claudeGlobal ≠ FileState.absent →
        count_mcp_servers p fs = (read_mcp_servers Platform.claudeCode fs).1.length) ∧
      (p = Platform.claudeCode → fs.claudeGlobal = FileState.absent →
        count_mcp_servers p fs = 0) ∧
      (p ≠ Platform.claudeCode → count_mcp_servers p fs = nativeKeyCount p fs) := by
  intro p fs
  refine ⟨?_, ?_, ?_⟩
  · intro hp hne
    subst hp
    cases h : fs.claudeGlobal with
    | absent => exact absurd h hne
    | malformed => simp [count_mcp_servers, globalFile, read_mcp_servers, h]
    | ok d => simp [count_mcp_servers, globalFile, read_mcp_servers, h]
  · intro hp h
    subst hp
    simp [count_mcp_servers, globalFile, h]
  · intro hp
    cases p with
    | claudeCode => exact absurd rfl hp
    | codex =>
        cases h : fs.codexGlobal <;>
          simp [count_mcp_servers, nativeKeyCount, globalFile, h]
    | openCode =>
        cases h : fs.opencodeGlobal <;>
          simp [count_mcp_servers, nativeKeyCount, globalFile, h]
    | cursor =>
        cases h : fs.cursorGlobal <;>
          simp [count_mcp_servers, nativeKeyCount, globalFile, h]
    | windsurf =>
        cases h : fs.windsurfGlobal <;>
          simp [count_mcp_servers, nativeKeyCount, globalFile, h]

/-- Witness for C7 amended: both halves applied at concrete states. -/
theorem c7_count_amended_witness :
    count_mcp_servers Platform.claudeCode fsC1
      = (read_mcp_servers Platform.claudeCode fsC1).1.length ∧
    count_mcp_servers Platform.codex fsC7 = nativeKeyCount Platform.codex fsC7 :=
  ⟨(c7_count_amended Platform.claudeCode fsC1).1 rfl (by decide),
   (c7_count_amended Platform.codex fsC7).2.2 (by decide)⟩

/-- C9: clean_mcp_servers returns the count taken before any deletion; a
parsed global file lacking the owned key is left untouched by the clean (a
no-op for that file, not an error); and cleaning an already-empty config
twice returns zero both times, leaving the state unchanged both times (the
embedded function is total, so no exception escapes). -/
theorem c9_clean_semantics :
    ∀ (p : Platform) (fs : FS),
      (∀ dryRun : Bool, (clean_mcp_servers p dryRun fs).1 = count_mcp_servers p fs) ∧
      (∀ d : TopObj, globalFile p fs = FileState.ok d → hasKey d (ownedKey p) = false →
        globalFile p (clean_mcp_servers p false fs).2 = FileState.ok d) ∧
      (count_mcp_servers p fs = 0 →
        clean_mcp_servers p false fs = (0, fs) ∧
        clean_mcp_servers p false (clean_mcp_servers p false fs).2 = (0, fs)) := by
  intro p fs
  refine ⟨?_, ?_, ?_⟩
  · intro dr
    by_cases h : (dr = true) ∨ count_mcp_servers p fs = 0
    · simp only [clean_mcp_servers]
      rw [if_pos h]
    · simp only [clean_mcp_servers]
      rw [if_neg h]
      cases p with
      | claudeCode => cases fs.claudeGlobal <;> rfl
      | codex => rfl
      | openCode => rfl
      | cursor => rfl
      | windsurf => rfl
  · intro d hg hk
    by_cases h0 : count_mcp_servers p fs = 0
    · have h1 : clean_mcp_servers p false fs = (count_mcp_servers p fs, fs) := by
        simp only [clean_mcp_servers]
        rw [if_pos (Or.inr h0)]
      rw [h1]
      exact hg
    · have hcond : ¬((false = true) ∨ count_mcp_servers p fs = 0) := by
        simp [h0]
      cases p with
      | claudeCode =>
          have hg' : fs.claudeGlobal = FileState.ok d := hg
          have hk' : hasKey d "mcpServers" = false := hk
          simp only [clean_mcp_servers]
          rw [if_neg hcond]
          simp [hg', hk', globalFile]
      | codex =>
          have hg' : fs.codexGlobal = FileState.ok d := hg
          have hk' : hasKey d "mcp_servers" = false := hk
          simp only [clean_mcp_servers]
          rw [if_neg hcond]
          simp [cleanGlobal, hg', hk', globalFile]
      | openCode =>
          have hg' : fs.opencodeGlobal = FileState.ok d := hg
          have hk' : hasKey d "mcp" = false := hk
          simp only [clean_mcp_servers]
          rw [if_neg hcond]
          simp [cleanGlobal, hg', hk', globalFile]
      | cursor =>
          have hg' : fs.cursorGlobal = FileState.ok d := hg
          have hk' : hasKey d "mcpServers" = false := hk
          simp only [clean_mcp_servers]
          rw [if_neg hcond]
          simp [cleanGlobal, hg', hk', globalFile]
      | windsurf =>
          have hg' : fs.windsurfGlobal = FileState.ok d := hg
          have hk' : hasKey d "mcpServers" = false := hk
          simp only [clean_mcp_servers]
          rw [if_neg hcond]
          simp [cleanGlobal, hg', hk', globalFile]
  · intro h0
    have h1 : clean_mcp_servers p false fs = (0, fs) := by
      simp only [clean_mcp_servers]
      rw [if_pos (Or.inr h0), h0]
    rw [h1]
    exact ⟨rfl, h1⟩

/-- Witness for C9: the clean semantics applied at a concrete empty state
and at a concrete file lacking the owned key. -/
theorem c9_clean_semantics_witness :
    clean_mcp_servers Platform.codex false FS.empty = (0, FS.empty) ∧
    globalFile Platform.openCode
      (clean_mcp_servers Platform.openCode false
        { FS.empty with opencodeGlobal := FileState.ok [("other", TopVal.other 3)] }).2
      = FileState.ok [("other", TopVal.other 3)] :=
  ⟨((c9_clean_semantics Platform.codex FS.empty).2.2 (by decide)).1,
   (c9_clean_semantics Platform.openCode
      { FS.empty with opencodeGlobal := FileState.ok [("other", TopVal.other 3)] }).2.1
      [("other", TopVal.other 3)] rfl (by decide)⟩
